import Mathlib

/-!
Shallow embedding of `src/api/index.py` of the waterpolo-rankings-api
serverless backend, together with proofs about the cache subsystem, the
cache-key derivation and the ranking-history / matches query logic.

Conventions of the embedding:
* the process-wide Python dict `CACHE` is modelled as an insertion-ordered
  association list with (invariantly) distinct keys — exactly the iteration
  order of a CPython dict;
* `time.time()` values are passed in explicitly as natural-number `now`
  arguments;
* machine reals/floats do not occur in any comparison that the claims touch
  (`time.time() - timestamp < CACHE_TTL` behaves identically on truncated
  natural subtraction, since a "negative" difference also passes the test);
* a Python exception that escapes to an endpoint's `except` block is
  modelled as `Except.error ()` (the handler returns a generic 500 payload).
-/

namespace WaterpoloApi

/-- `CACHE_TTL = 3600` (src/api/index.py line 18). -/
def CACHE_TTL : Nat := 3600

/-- `CACHE_MAX_SIZE = 100` (src/api/index.py line 19). -/
def CACHE_MAX_SIZE : Nat := 100

/-- The cache: Python dict from string keys to `(data, timestamp)` pairs,
as an insertion-ordered association list. `α` is the (opaque) payload type. -/
abbrev Cache (α : Type) := List (String × α × Nat)

/-- Dict lookup `CACHE[key]` / membership `key in CACHE`. -/
def lookupC {α : Type} : Cache α → String → Option (α × Nat)
  | [], _ => none
  | e :: rest, k => if e.1 = k then some e.2 else lookupC rest k

/-- Dict deletion `del CACHE[key]` (removes the unique binding of `k`). -/
def eraseKey {α : Type} : Cache α → String → Cache α
  | [], _ => []
  | e :: rest, k => if e.1 = k then rest else e :: eraseKey rest k

/-- Dict assignment `CACHE[key] = v`: updates in place when the key is
present (keeping its position, as a CPython dict does), appends otherwise. -/
def dictInsert {α : Type} (c : Cache α) (k : String) (v : α × Nat) : Cache α :=
  if (lookupC c k).isSome then
    c.map (fun e => if e.1 = k then (k, v) else e)
  else c ++ [(k, v)]

/-- `min(CACHE.keys(), key=lambda k: CACHE[k][1])` together with the bound
entry: the first entry (in iteration order) attaining the minimal timestamp,
matching Python `min`'s first-wins tie-breaking. -/
def minByTs {α : Type} : Cache α → Option (String × α × Nat)
  | [] => none
  | e :: rest => some (rest.foldl (fun best y => if y.2.2 < best.2.2 then y else best) e)

/-- The key column of the cache. -/
def keys {α : Type} (c : Cache α) : List String := c.map (·.1)

/-- The dict invariant: all keys distinct. -/
abbrev keysNodup {α : Type} (c : Cache α) : Prop := (keys c).Nodup

/-- `get_from_cache` (src/api/index.py lines 62–71).  Returns the served
value (if any) together with the cache state after the call. -/
def get_from_cache {α : Type} (c : Cache α) (key : String) (now : Nat) :
    Option α × Cache α :=
  match lookupC c key with
  | some (data, timestamp) =>
      if now - timestamp < CACHE_TTL then (some data, c)
      else (none, eraseKey c key)
  | none => (none, c)

/-- `set_cache` (src/api/index.py lines 73–81).  Note the source evicts
whenever `len(CACHE) >= CACHE_MAX_SIZE`, with no check that `key` is
already present. -/
def set_cache {α : Type} (c : Cache α) (key : String) (data : α) (now : Nat) :
    Cache α :=
  let c1 :=
    if CACHE_MAX_SIZE ≤ c.length then
      match minByTs c with
      | some oldest => eraseKey c oldest.1
      | none => c
    else c
  dictInsert c1 key (data, now)

/-- Sequential `set_cache` calls, one per `(key, data, now)` triple. -/
def insertAll {α : Type} (c : Cache α) (l : List (String × α × Nat)) : Cache α :=
  l.foldl (fun acc e => set_cache acc e.1 e.2.1 e.2.2) c

/-! ### Cache key derivation: `cache_key_generator` (src/api/index.py lines 57–60) -/

/-- UTF-8 encoding of one code point (what `str.encode()` does per character). -/
def utf8Bytes (c : Nat) : List Nat :=
  if c < 0x80 then [c]
  else if c < 0x800 then [0xC0 + c / 0x40, 0x80 + c % 0x40]
  else if c < 0x10000 then
    [0xE0 + c / 0x1000, 0x80 + c / 0x40 % 0x40, 0x80 + c % 0x40]
  else
    [0xF0 + c / 0x40000, 0x80 + c / 0x1000 % 0x40, 0x80 + c / 0x40 % 0x40, 0x80 + c % 0x40]

/-- `key_string.encode()`: the UTF-8 bytes of a string. -/
def strBytes (s : String) : List Nat := s.data.flatMap (fun c => utf8Bytes c.toNat)

/-- The 64 MD5 round constants `K[i] = floor(2^32 * |sin(i+1)|)` (RFC 1321). -/
def md5K : List Nat :=
  [0xd76aa478, 0xe8c7b756, 0x242070db, 0xc1bdceee,
   0xf57c0faf, 0x4787c62a, 0xa8304613, 0xfd469501,
   0x698098d8, 0x8b44f7af, 0xffff5bb1, 0x895cd7be,
   0x6b901122, 0xfd987193, 0xa679438e, 0x49b40821,
   0xf61e2562, 0xc040b340, 0x265e5a51, 0xe9b6c7aa,
   0xd62f105d, 0x02441453, 0xd8a1e681, 0xe7d3fbc8,
   0x21e1cde6, 0xc33707d6, 0xf4d50d87, 0x455a14ed,
   0xa9e3e905, 0xfcefa3f8, 0x676f02d9, 0x8d2a4c8a,
   0xfffa3942, 0x8771f681, 0x6d9d6122, 0xfde5380c,
   0xa4beea44, 0x4bdecfa9, 0xf6bb4b60, 0xbebfbc70,
   0x289b7ec6, 0xeaa127fa, 0xd4ef3085, 0x04881d05,
   0xd9d4d039, 0xe6db99e5, 0x1fa27cf8, 0xc4ac5665,
   0xf4292244, 0x432aff97, 0xab9423a7, 0xfc93a039,
   0x655b59c3, 0x8f0ccc92, 0xffeff47d, 0x85845dd1,
   0x6fa87e4f, 0xfe2ce6e0, 0xa3014314, 0x4e0811a1,
   0xf7537e82, 0xbd3af235, 0x2ad7d2bb, 0xeb86d391]

/-- The 64 MD5 per-round left-rotation amounts (RFC 1321). -/
def md5S : List Nat :=
  [7, 12, 17, 22, 7, 12, 17, 22, 7, 12, 17, 22, 7, 12, 17, 22,
   5, 9, 14, 20, 5, 9, 14, 20, 5, 9, 14, 20, 5, 9, 14, 20,
   4, 11, 16, 23, 4, 11, 16, 23, 4, 11, 16, 23, 4, 11, 16, 23,
   6, 10, 15, 21, 6, 10, 15, 21, 6, 10, 15, 21, 6, 10, 15, 21]

/-- 32-bit left rotation on `Nat` (words kept `< 2^32` by explicit `% 2^32`). -/
def rotl32 (x n : Nat) : Nat := ((x <<< n) ||| (x >>> (32 - n))) % 2 ^ 32

/-- Word `M[g]`: 4 bytes of the 64-byte chunk, little-endian. -/
def md5Word (chunk : List Nat) (g : Nat) : Nat :=
  chunk.getD (4 * g) 0 + 0x100 * chunk.getD (4 * g + 1) 0 +
    0x10000 * chunk.getD (4 * g + 2) 0 + 0x1000000 * chunk.getD (4 * g + 3) 0

/-- One of the 64 MD5 operations on the running state `(a, b, c, d)`. -/
def md5Step (chunk : List Nat) (st : Nat × Nat × Nat × Nat) (i : Nat) :
    Nat × Nat × Nat × Nat :=
  let a := st.1; let b := st.2.1; let c := st.2.2.1; let d := st.2.2.2
  let fg : Nat × Nat :=
    if i < 16 then ((b &&& c) ||| ((b ^^^ 0xffffffff) &&& d), i)
    else if i < 32 then ((d &&& b) ||| ((d ^^^ 0xffffffff) &&& c), (5 * i + 1) % 16)
    else if i < 48 then (b ^^^ c ^^^ d, (3 * i + 5) % 16)
    else (c ^^^ (b ||| (d ^^^ 0xffffffff)), 7 * i % 16)
  let tmp := (fg.1 + a + md5K.getD i 0 + md5Word chunk fg.2) % 2 ^ 32
  (d, (b + rotl32 tmp (md5S.getD i 0)) % 2 ^ 32, b, c)

/-- Process one 64-byte chunk and add the result into the state. -/
def md5Chunk (st : Nat × Nat × Nat × Nat) (chunk : List Nat) :
    Nat × Nat × Nat × Nat :=
  let r := (List.range 64).foldl (md5Step chunk) st
  ((st.1 + r.1) % 2 ^ 32, (st.2.1 + r.2.1) % 2 ^ 32,
   (st.2.2.1 + r.2.2.1) % 2 ^ 32, (st.2.2.2 + r.2.2.2) % 2 ^ 32)

/-- The 8-byte little-endian encoding of the message bit length. -/
def md5LenBytes (bits : Nat) : List Nat :=
  (List.range 8).map (fun i => bits / 2 ^ (8 * i) % 0x100)

/-- MD5 padding: `0x80`, zeros to 56 mod 64, then the 64-bit bit length. -/
def md5Pad (msg : List Nat) : List Nat :=
  msg ++ 0x80 :: List.replicate ((119 - msg.length % 64) % 64) 0 ++
    md5LenBytes (8 * msg.length % 2 ^ 64)

/-- Split a byte list into 64-byte chunks (structural recursion on a fuel
bound that always suffices, so that the definition reduces in the kernel). -/
def md5ChunksAux : Nat → List Nat → List (List Nat)
  | 0, _ => []
  | fuel + 1, l => if l = [] then [] else l.take 64 :: md5ChunksAux fuel (l.drop 64)

/-- Split a byte list into 64-byte chunks. -/
def md5Chunks (l : List Nat) : List (List Nat) := md5ChunksAux (l.length / 64 + 1) l

/-- The MD5 initial state. -/
def md5Init : Nat × Nat × Nat × Nat := (0x67452301, 0xefcdab89, 0x98badcfe, 0x10325476)

/-- Lower-case hex digit. -/
def hexChar (n : Nat) : Char := if n < 10 then Char.ofNat (48 + n) else Char.ofNat (87 + n)

/-- Two lower-case hex digits of a byte. -/
def byteHexChars (b : Nat) : List Char := [hexChar (b / 16), hexChar (b % 16)]

/-- Little-endian bytes of a 32-bit word. -/
def word32Bytes (w : Nat) : List Nat :=
  [w % 0x100, w / 0x100 % 0x100, w / 0x10000 % 0x100, w / 0x1000000 % 0x100]

/-- `hashlib.md5(bytes).hexdigest()`: full MD5, lower-case hex output. -/
def md5hex (msg : List Nat) : String :=
  let st := (md5Chunks (md5Pad msg)).foldl md5Chunk md5Init
  ⟨(word32Bytes st.1 ++ word32Bytes st.2.1 ++ word32Bytes st.2.2.1 ++
      word32Bytes st.2.2.2).flatMap byteHexChars⟩

/-- `key_string = "_".join(str(arg) for arg in args)` (line 59); all call
sites pass strings already. -/
def key_string (args : List String) : String :=
  match args with
  | [] => ""
  | x :: xs => xs.foldl (fun acc s => acc ++ "_" ++ s) x

/-- `cache_key_generator` (lines 57–60): the MD5 hexdigest of the
underscore-join of the arguments. -/
def cache_key_generator (args : List String) : String :=
  md5hex (strBytes (key_string args))

/-- `key_string` at the `List Char` level (same underscore join on the
character data), for reasoning about separator ambiguity. -/
def joinChar : List (List Char) → List Char
  | [] => []
  | x :: xs => xs.foldl (fun acc s => acc ++ '_' :: s) x

/-! ### Dates: the fragment of `datetime.strptime` / `strftime` the source uses -/

/-- A calendar date as `datetime` holds it. -/
structure Date where
  y : Nat
  m : Nat
  d : Nat
deriving DecidableEq, Repr

/-- Gregorian leap year, as `datetime` validates day-of-month. -/
def isLeap (y : Nat) : Bool := y % 4 == 0 && (y % 100 != 0 || y % 400 == 0)

/-- Days in a month, used by `datetime`'s constructor validation. -/
def daysInMonth (y m : Nat) : Nat :=
  if m = 2 then (if isLeap y then 29 else 28)
  else if m = 4 ∨ m = 6 ∨ m = 9 ∨ m = 11 then 30
  else 31

/-- Split character data on a single separator character, CPython
`str.split(sep)` semantics (empty string gives one empty field). -/
def splitOnChar (sep : Char) : List Char → List (List Char)
  | [] => [[]]
  | c :: rest =>
    let r := splitOnChar sep rest
    if c = sep then [] :: r
    else
      match r with
      | [] => [[c]]
      | h :: t => (c :: h) :: t

/-- `s.split(sep)` for a one-character separator. -/
def strSplitOn (sep : Char) (s : String) : List String :=
  (splitOnChar sep s.data).map String.mk

/-- Leading/trailing whitespace strip on character data (what `int(str)`
does before parsing). -/
def stripChars (cs : List Char) : List Char :=
  ((cs.dropWhile Char.isWhitespace).reverse.dropWhile Char.isWhitespace).reverse

/-- Decimal value of a nonempty all-digit character run (`none` otherwise). -/
def digitsToNat? (cs : List Char) : Option Nat :=
  if cs ≠ [] ∧ cs.all Char.isDigit then
    some (cs.foldl (fun acc c => 10 * acc + (c.toNat - 48)) 0)
  else none

/-- A `%m`/`%d` field: one or two decimal digits. -/
def parseMonthDayField (s : String) : Option Nat :=
  if s.length ≤ 2 then digitsToNat? s.data else none

/-- A `%Y` field: exactly four decimal digits (CPython's `_strptime` regex). -/
def parseYearField (s : String) : Option Nat :=
  if s.length = 4 then digitsToNat? s.data else none

/-- `datetime(y, m, d)` construction: validates ranges, else `ValueError`. -/
def mkValidDate (y m d : Nat) : Option Date :=
  if 1 ≤ y ∧ 1 ≤ m ∧ m ≤ 12 ∧ 1 ≤ d ∧ d ≤ daysInMonth y m then some ⟨y, m, d⟩
  else none

/-- `datetime.strptime(s, "%m/%d/%Y")`; `none` models the `ValueError`. -/
def strptimeMDY (s : String) : Option Date :=
  match strSplitOn '/' s with
  | [ms, ds, ys] => do
      let m ← parseMonthDayField ms
      let d ← parseMonthDayField ds
      let y ← parseYearField ys
      mkValidDate y m d
  | _ => none

/-- `datetime.strptime(s, "%Y-%m-%d")`; `none` models the `ValueError`. -/
def strptimeYMD (s : String) : Option Date :=
  match strSplitOn '-' s with
  | [ys, ms, ds] => do
      let y ← parseYearField ys
      let m ← parseMonthDayField ms
      let d ← parseMonthDayField ds
      mkValidDate y m d
  | _ => none

/-- Chronological order on `datetime` values: lexicographic on (y, m, d). -/
def dateLe (a b : Date) : Prop :=
  a.y < b.y ∨ (a.y = b.y ∧ (a.m < b.m ∨ (a.m = b.m ∧ a.d ≤ b.d)))

instance (a b : Date) : Decidable (dateLe a b) := by unfold dateLe; infer_instance

/-- Zero-pad a number to a width (as `strftime`'s numeric fields do). -/
def padNum (width n : Nat) : String :=
  String.mk (List.replicate (width - (toString n).length) '0') ++ toString n

/-- `current_date.strftime("%Y-%m-%d")`. -/
def strftimeYMD (dt : Date) : String :=
  padNum 4 dt.y ++ "-" ++ padNum 2 dt.m ++ "-" ++ padNum 2 dt.d

/-! ### Ranking-history query: `get_team_ranking_history` (lines 166–223) -/

/-- One entry of a date-group of the rankings JSON:
`{"team_name": ..., "ranking": ...}`. -/
structure RankEntry where
  team_name : String
  ranking : Nat
deriving DecidableEq, Repr

/-- The preloaded rankings dataset: date-group label ↦ entries, in dict
iteration order. -/
abbrev Rankings := List (String × List RankEntry)

/-- One emitted row (lines 196–200). -/
structure HistoryRow where
  team_name : String
  date : String
  rank : Nat
deriving DecidableEq, Repr

/-- `date_str.split('-')[0]`: the portion before the first hyphen. -/
def beforeHyphen (s : String) : String := (strSplitOn '-' s).headD s

/-- The group-scanning loop (lines 187–200).  `none` models the
`ValueError` that `strptime` raises on a malformed group label; it aborts
the whole loop (and the rows collected so far are discarded). -/
def collectHistory (rankings : Rankings) (start_dt end_dt : Date)
    (team_list : List String) : Option (List HistoryRow) :=
  match rankings with
  | [] => some []
  | (date_str, ranking_list) :: rest =>
    match strptimeMDY (beforeHyphen date_str) with
    | none => none
    | some current_date =>
      let rows :=
        if dateLe start_dt current_date ∧ dateLe current_date end_dt then
          (ranking_list.filter (fun t => t.team_name ∈ team_list)).map
            (fun t => { team_name := t.team_name, date := strftimeYMD current_date,
                        rank := t.ranking })
        else []
      (collectHistory rest start_dt end_dt team_list).map (fun tail => rows ++ tail)

/-- Python string `<`: code-point lexicographic comparison of the
character data. -/
def strLtB : List Char → List Char → Bool
  | [], [] => false
  | [], _ :: _ => true
  | _ :: _, [] => false
  | a :: as, b :: bs =>
    if a.toNat < b.toNat then true
    else if a = b then strLtB as bs
    else false

/-- Python `a < b` on strings. -/
def strLt (a b : String) : Prop := strLtB a.data b.data = true

/-- Python `a <= b` on strings (not `b < a`, equivalent in a total order). -/
def strLe (a b : String) : Prop := strLtB b.data a.data = false

/-- The Python sort key `(x['date'], x['team_name'])` compared as tuples:
a total preorder on rows (the `rank` field does not participate). -/
def rowLe (x y : HistoryRow) : Prop :=
  strLt x.date y.date ∨ (x.date = y.date ∧ strLe x.team_name y.team_name)

instance : DecidableRel rowLe := fun x y => by
  unfold rowLe strLt strLe
  infer_instance

/-- Whether a row carries the given `(date, teamName)` sort key (used to
state sort stability per key). -/
def rowKeyIs (dk tk : String) (x : HistoryRow) : Bool :=
  x.date = dk ∧ x.team_name = tk

/-- `history.sort(key=lambda x: (x['date'], x['team_name']))` (line 203):
CPython `list.sort` is the stable sort by this key, and every stable sort
by the same total preorder yields insertion sort's output. -/
def sortHistory (l : List HistoryRow) : List HistoryRow := List.insertionSort rowLe l

/-- The successful response payload of the history endpoint (lines 205–213). -/
structure HistoryResult where
  data : List HistoryRow
  count : Nat
  teams : List String
  rangeStart : String
  rangeEnd : String
deriving DecidableEq, Repr

/-- `get_team_ranking_history` (lines 166–223) on a cache miss, with the
preloaded `rankings` dataset explicit.  `Except.error ()` models the
`except` branch returning the generic 500 response. -/
def get_team_ranking_history (rankings : Rankings)
    (team_names start_date end_date : String) : Except Unit HistoryResult :=
  match strptimeYMD start_date with
  | none => .error ()
  | some start_dt =>
  match strptimeYMD end_date with
  | none => .error ()
  | some end_dt =>
  let team_list := (strSplitOn ',' team_names).map (fun name => String.mk (stripChars name.data))
  match collectHistory rankings start_dt end_dt team_list with
  | none => .error ()
  | some history0 =>
    let history := sortHistory history0
    .ok { data := history, count := history.length, teams := team_list,
          rangeStart := start_date, rangeEnd := end_date }

/-- Modelled from the spec (§4.3 step 3, §7: "Dataset date-group label
malformed → that group is skipped"): the rows the spec says are emitted —
one `HistoryRow` per dataset entry whose parsed group date lies within the
inclusive range and whose team name is requested, unparsable groups
skipped.  Used to compare the source's behaviour with the spec's words. -/
def specEmittedRows (rankings : Rankings) (team_list : List String)
    (start_dt end_dt : Date) : List HistoryRow :=
  rankings.flatMap (fun g =>
    match strptimeMDY (beforeHyphen g.1) with
    | some dt =>
        if dateLe start_dt dt ∧ dateLe dt end_dt then
          (g.2.filter (fun t => t.team_name ∈ team_list)).map
            (fun t => { team_name := t.team_name, date := strftimeYMD dt,
                        rank := t.ranking })
        else []
    | none => [])

/-! ### Matches endpoint: `get_matches` (lines 125–163) -/

/-- CPython digit-run grammar for `int(str)` after the sign: nonempty
decimal digits with single underscores allowed only between digits. -/
def pyDigitsRest : List Char → Bool
  | [] => true
  | '_' :: c :: rest => c.isDigit && pyDigitsRest rest
  | ['_'] => false
  | c :: rest => c.isDigit && pyDigitsRest rest

/-- A full digit run: starts with a digit, then `pyDigitsRest`. -/
def pyDigitsOk : List Char → Bool
  | [] => false
  | c :: rest => c.isDigit && pyDigitsRest rest

/-- Numeric value of a digit run, ignoring underscores. -/
def digitsVal (cs : List Char) : Nat :=
  (cs.filter (fun c => c ≠ '_')).foldl (fun acc c => 10 * acc + (c.toNat - 48)) 0

/-- `int(s)` for a `str` argument: strip whitespace, optional sign, digit
run; `none` models the `ValueError`. -/
def pyInt (s : String) : Option Int :=
  match stripChars s.data with
  | '+' :: cs => if pyDigitsOk cs then some (digitsVal cs) else none
  | '-' :: cs => if pyDigitsOk cs then some (-(digitsVal cs : Int)) else none
  | cs => if pyDigitsOk cs then some (digitsVal cs) else none

/-- The composite key `key1 = f"{int(row_rank)-1}_{int(col_rank)-1}"`
(line 142), on the already-converted integers. -/
def compositeKey (r c : Int) : String := toString (r - 1) ++ "_" ++ toString (c - 1)

/-- The successful response payload of the matches endpoint (lines 148–153);
`γ` is the opaque type of one stored game.  `matchesList` embeds the JSON
field `"matches"` (a reserved word in Lean). -/
structure MatchesResult (γ : Type) where
  matchesList : List γ
  count : Nat
  row_rank : String
  col_rank : String
deriving DecidableEq, Repr

/-- Python dict lookup `doc[key1]` in the aggregate matches document. -/
def lookupDoc {γ : Type} : List (String × List γ) → String → Option (List γ)
  | [], _ => none
  | e :: rest, k => if e.1 = k then some e.2 else lookupDoc rest k

/-- `get_matches` (lines 125–163) on a cache miss: `docs` models the list
returned by `matches_col.find`, `list(matches_doc)[0]` its first document.
Any raised exception — rank not convertible with `int`, empty collection,
absent composite key — lands in the `except` branch, i.e. `.error ()`. -/
def get_matches {γ : Type} (docs : List (List (String × List γ)))
    (row_rank col_rank : String) : Except Unit (MatchesResult γ) :=
  match pyInt row_rank, pyInt col_rank with
  | some r, some c =>
    let key1 := compositeKey r c
    match docs.head? with
    | none => .error ()
    | some doc =>
      match lookupDoc doc key1 with
      | some games =>
          .ok { matchesList := games, count := games.length,
                row_rank := row_rank, col_rank := col_rank }
      | none => .error ()
  | _, _ => .error ()

/-- A concrete full cache: 100 entries `("k" ++ i, i, i)`, timestamps
increasing with insertion order. -/
def bigCache : Cache Nat :=
  (List.range CACHE_MAX_SIZE).map (fun i => ("k" ++ toString i, i, i))

/-! ## Lemmas about the cache model -/

theorem lookupC_eq_none_iff {α : Type} (c : Cache α) (k : String) :
    lookupC c k = none ↔ k ∉ keys c := by
  induction c with
  | nil => simp [lookupC, keys]
  | cons e rest ih =>
    by_cases h : e.1 = k
    · simp [lookupC, h, keys]
    · simp only [lookupC, if_neg h, keys, List.map_cons, List.mem_cons]
      rw [ih]
      unfold keys
      constructor
      · intro hk hor
        rcases hor with h1 | h2
        · exact h (h1.symm)
        · exact hk h2
      · intro hk
        exact fun hmem => hk (Or.inr hmem)

theorem lookupC_append_of_none {α : Type} {c₁ : Cache α} (c₂ : Cache α) {k : String}
    (h : lookupC c₁ k = none) : lookupC (c₁ ++ c₂) k = lookupC c₂ k := by
  induction c₁ with
  | nil => rfl
  | cons e rest ih =>
    by_cases he : e.1 = k
    · simp [lookupC, he] at h
    · simp only [lookupC, if_neg he] at h
      simpa [lookupC, he] using ih h

theorem lookupC_eraseKey_self {α : Type} {c : Cache α} (k : String)
    (h : keysNodup c) : lookupC (eraseKey c k) k = none := by
  induction c with
  | nil => rfl
  | cons e rest ih =>
    have hnd : e.1 ∉ keys rest ∧ keysNodup rest := by
      unfold keysNodup keys at h ⊢
      simpa [List.nodup_cons] using h
    by_cases he : e.1 = k
    · simp only [eraseKey, if_pos he]
      exact (lookupC_eq_none_iff rest k).mpr (he ▸ hnd.1)
    · simp only [eraseKey, if_neg he, lookupC, if_neg he]
      exact ih hnd.2

theorem lookupC_eraseKey_other {α : Type} (c : Cache α) {k0 k : String}
    (h : k ≠ k0) : lookupC (eraseKey c k0) k = lookupC c k := by
  induction c with
  | nil => rfl
  | cons e rest ih =>
    by_cases he : e.1 = k0
    · have hek : ¬ e.1 = k := by rw [he]; exact Ne.symm h
      simp only [eraseKey, if_pos he, lookupC, if_neg hek]
    · simp only [eraseKey, if_neg he, lookupC]
      by_cases hek : e.1 = k
      · simp only [if_pos hek]
      · simp only [if_neg hek, ih]

theorem length_eraseKey_of_mem {α : Type} {c : Cache α} {k : String}
    (h : k ∈ keys c) : (eraseKey c k).length + 1 = c.length := by
  induction c with
  | nil => simp [keys] at h
  | cons e rest ih =>
    by_cases he : e.1 = k
    · simp [eraseKey, he]
    · have hk : k ∈ keys rest := by
        unfold keys at h ⊢
        rcases List.mem_cons.mp h with h1 | h2
        · exact absurd h1.symm he
        · exact h2
      simp only [eraseKey, if_neg he, List.length_cons]
      rw [← ih hk]

theorem lookupC_mapReplace_other {α : Type} (c : Cache α) (k k' : String)
    (v : α × Nat) (h : k' ≠ k) :
    lookupC (c.map (fun e => if e.1 = k then (k, v) else e)) k' = lookupC c k' := by
  induction c with
  | nil => rfl
  | cons e rest ih =>
    simp only [List.map_cons]
    by_cases he : e.1 = k
    · have h1 : ¬ ((k, v).1 = k') := Ne.symm h
      have h2 : ¬ (e.1 = k') := by rw [he]; exact Ne.symm h
      simp only [if_pos he, lookupC, if_neg h1, if_neg h2, ih]
    · by_cases hek : e.1 = k'
      · simp only [if_neg he, lookupC, if_pos hek]
      · simp only [if_neg he, lookupC, if_neg hek, ih]

theorem lookupC_mapReplace_self {α : Type} {c : Cache α} {k : String}
    (v : α × Nat) (h : (lookupC c k).isSome) :
    lookupC (c.map (fun e => if e.1 = k then (k, v) else e)) k = some v := by
  induction c with
  | nil => simp [lookupC] at h
  | cons e rest ih =>
    by_cases he : e.1 = k
    · simp [lookupC, he]
    · simp only [lookupC, if_neg he] at h
      simpa [lookupC, he] using ih h

theorem lookupC_dictInsert_self {α : Type} (c : Cache α) (k : String) (v : α × Nat) :
    lookupC (dictInsert c k v) k = some v := by
  unfold dictInsert
  by_cases h : (lookupC c k).isSome
  · rw [if_pos h]
    exact lookupC_mapReplace_self v h
  · rw [if_neg h]
    have hnone : lookupC c k = none := by
      cases hc : lookupC c k
      · rfl
      · exact absurd (by simp [hc]) h
    rw [lookupC_append_of_none _ hnone]
    simp [lookupC]

theorem lookupC_append_of_some {α : Type} {c₁ : Cache α} (c₂ : Cache α)
    {k : String} {v : α × Nat} (h : lookupC c₁ k = some v) :
    lookupC (c₁ ++ c₂) k = some v := by
  induction c₁ with
  | nil => simp [lookupC] at h
  | cons e rest ih =>
    by_cases he : e.1 = k
    · simp only [lookupC, if_pos he] at h
      simp only [List.cons_append, lookupC, if_pos he, h]
    · simp only [lookupC, if_neg he] at h
      simp only [List.cons_append, lookupC, if_neg he]
      exact ih h

theorem lookupC_dictInsert_other {α : Type} (c : Cache α) {k k' : String}
    (v : α × Nat) (h : k' ≠ k) :
    lookupC (dictInsert c k v) k' = lookupC c k' := by
  unfold dictInsert
  by_cases hs : (lookupC c k).isSome
  · rw [if_pos hs]
    exact lookupC_mapReplace_other c k k' v h
  · rw [if_neg hs]
    cases hc : lookupC c k' with
    | some w => exact lookupC_append_of_some _ hc
    | none =>
      rw [lookupC_append_of_none _ hc]
      simp only [lookupC, if_neg (show ¬ ((k, v).1 = k') from Ne.symm h), hc]

theorem length_dictInsert {α : Type} (c : Cache α) (k : String) (v : α × Nat) :
    (dictInsert c k v).length =
      if (lookupC c k).isSome then c.length else c.length + 1 := by
  unfold dictInsert
  split
  · simp
  · simp

theorem minByTs_mem {α : Type} {c : Cache α} {m : String × α × Nat}
    (h : minByTs c = some m) : m ∈ c := by
  cases c with
  | nil => simp [minByTs] at h
  | cons e rest =>
    simp only [minByTs, Option.some.injEq] at h
    have key : ∀ (l : Cache α) (acc : String × α × Nat),
        l.foldl (fun best y => if y.2.2 < best.2.2 then y else best) acc = acc ∨
        l.foldl (fun best y => if y.2.2 < best.2.2 then y else best) acc ∈ l := by
      intro l
      induction l with
      | nil => intro acc; exact Or.inl rfl
      | cons y ys ih =>
        intro acc
        rcases ih (if y.2.2 < acc.2.2 then y else acc) with h1 | h2
        · simp only [List.foldl_cons, h1]
          split
          · exact Or.inr (List.mem_cons_self _ _)
          · exact Or.inl rfl
        · exact Or.inr (List.mem_cons_of_mem _ h2)
    rcases key rest e with h1 | h2
    · rw [← h, h1]; exact List.mem_cons_self _ _
    · exact h ▸ List.mem_cons_of_mem _ h2

theorem minByTs_head {α : Type} (e : String × α × Nat) (rest : Cache α)
    (h : ∀ y ∈ rest, e.2.2 ≤ y.2.2) : minByTs (e :: rest) = some e := by
  simp only [minByTs, Option.some.injEq]
  induction rest with
  | nil => rfl
  | cons y ys ih =>
    have hy : ¬ y.2.2 < e.2.2 := not_lt.mpr (h y (List.mem_cons_self _ _))
    simp only [List.foldl_cons, if_neg hy]
    exact ih (fun z hz => h z (List.mem_cons_of_mem _ hz))

theorem minByTs_isSome {α : Type} {c : Cache α} (h : c ≠ []) :
    ∃ m, minByTs c = some m := by
  cases c with
  | nil => exact absurd rfl h
  | cons e rest => exact ⟨_, rfl⟩

theorem set_cache_of_lt {α : Type} {c : Cache α} (k : String) (d : α) (t : Nat)
    (h : c.length < CACHE_MAX_SIZE) :
    set_cache c k d t = dictInsert c k (d, t) := by
  unfold set_cache
  rw [if_neg (by omega)]

theorem set_cache_of_full {α : Type} {c : Cache α} (k : String) (d : α) (t : Nat)
    {m : String × α × Nat} (h : CACHE_MAX_SIZE ≤ c.length)
    (hm : minByTs c = some m) :
    set_cache c k d t = dictInsert (eraseKey c m.1) k (d, t) := by
  unfold set_cache
  rw [if_pos h, hm]

theorem keys_append {α : Type} (c₁ c₂ : Cache α) :
    keys (c₁ ++ c₂) = keys c₁ ++ keys c₂ := by
  unfold keys
  exact List.map_append _ _ _

theorem insertAll_fresh {α : Type} (l : List (String × α × Nat)) :
    ∀ c : Cache α, keysNodup (c ++ l) → (c ++ l).length ≤ CACHE_MAX_SIZE →
      insertAll c l = c ++ l := by
  induction l with
  | nil => intro c _ _; simp [insertAll]
  | cons x xs ih =>
    intro c hnd hlen
    have hlt : c.length < CACHE_MAX_SIZE := by
      simp only [List.length_append, List.length_cons] at hlen
      omega
    have hxc : lookupC c x.1 = none := by
      rw [lookupC_eq_none_iff]
      intro hmem
      have h2 : (keys c ++ keys (x :: xs)).Nodup := by
        rw [← keys_append]; exact hnd
      rw [List.nodup_append] at h2
      exact h2.2.2 hmem (List.mem_map_of_mem _ (List.mem_cons_self _ _))
    have step : insertAll c (x :: xs) = insertAll (c ++ [x]) xs := by
      show insertAll (set_cache c x.1 x.2.1 x.2.2) xs = insertAll (c ++ [x]) xs
      rw [set_cache_of_lt _ _ _ hlt]
      unfold dictInsert
      rw [if_neg (by rw [hxc]; simp)]
    rw [step, ih (c ++ [x]) (by simpa using hnd) (by simpa using hlen)]
    simp

/-! ## Claims C1, C3, C4: the cache store -/

set_option maxRecDepth 8000 in
/-- C1 is false on the code: with a full cache, `set_cache` of an
already-present key (`"k5"`) still evicts the minimum-`storedAt` entry
(`"k0"`), because the source never checks whether the key is present
before evicting. -/
theorem claim_C1_counterexample :
    (lookupC bigCache "k5").isSome = true ∧
    lookupC bigCache "k0" = some (0, 0) ∧
    lookupC (set_cache bigCache "k5" 999 200) "k0" = none := by
  decide

/-- C1 (amended): an eviction occurs iff `|entries| >= capacity`,
regardless of whether the inserted key is already present.  Below capacity
no binding other than the inserted key's changes; at or above capacity the
minimum-`storedAt` entry is evicted (when it is not the inserted key, its
key is afterwards absent) and every other key keeps its binding. -/
theorem claim_C1_amended {α : Type} :
    (∀ (c : Cache α) (k : String) (d : α) (t : Nat),
       c.length < CACHE_MAX_SIZE →
       ∀ k', lookupC (set_cache c k d t) k' =
         if k' = k then some (d, t) else lookupC c k') ∧
    (∀ (c : Cache α) (k : String) (d : α) (t : Nat),
       CACHE_MAX_SIZE ≤ c.length → keysNodup c →
       ∃ m, minByTs c = some m ∧ m ∈ c ∧
         (m.1 ≠ k → lookupC (set_cache c k d t) m.1 = none) ∧
         (∀ k', k' ≠ k → k' ≠ m.1 →
            lookupC (set_cache c k d t) k' = lookupC c k')) := by
  constructor
  · intro c k d t hlt k'
    rw [set_cache_of_lt k d t hlt]
    by_cases hk : k' = k
    · subst hk
      rw [if_pos rfl]
      exact lookupC_dictInsert_self c k' (d, t)
    · rw [if_neg hk]
      exact lookupC_dictInsert_other c (d, t) hk
  · intro c k d t hfull hnd
    have hne : c ≠ [] := by
      intro h0
      rw [h0] at hfull
      simp [CACHE_MAX_SIZE] at hfull
    obtain ⟨m, hm⟩ := minByTs_isSome hne
    refine ⟨m, hm, minByTs_mem hm, ?_, ?_⟩
    · intro hmk
      rw [set_cache_of_full k d t hfull hm,
          lookupC_dictInsert_other _ (d, t) hmk]
      exact lookupC_eraseKey_self m.1 hnd
    · intro k' hk'k hk'm
      rw [set_cache_of_full k d t hfull hm,
          lookupC_dictInsert_other _ (d, t) hk'k,
          lookupC_eraseKey_other _ hk'm]

/-- Witness for `claim_C1_amended` at a concrete input. -/
theorem claim_C1_witness :
    lookupC (set_cache [("a", (1 : Nat), 5)] "b" 2 9) "a" = some (1, 5) := by
  have h := (claim_C1_amended (α := Nat)).1 [("a", 1, 5)] "b" 2 9 (by decide) "a"
  rw [h]
  decide

/-- C3: `get_from_cache` serves the stored value iff the key is present and
`now - storedAt < CACHE_TTL`; an entry stored at `T` is served at
`T + CACHE_TTL - 1` and absent at `T + CACHE_TTL`; a lookup finding an
expired entry erases exactly that binding (under the dict invariant the key
is then absent); a lookup of an absent key leaves the store unchanged. -/
theorem claim_C3_get_from_cache_semantics {α : Type} :
    (∀ (c : Cache α) (k : String) (now : Nat) (d : α),
       (get_from_cache c k now).1 = some d ↔
         ∃ ts, lookupC c k = some (d, ts) ∧ now - ts < CACHE_TTL) ∧
    (∀ (c : Cache α) (k : String) (now : Nat) (d : α) (ts : Nat),
       lookupC c k = some (d, ts) → CACHE_TTL ≤ now - ts →
         (get_from_cache c k now).2 = eraseKey c k ∧
         (keysNodup c → lookupC (get_from_cache c k now).2 k = none)) ∧
    (∀ (c : Cache α) (k : String) (now : Nat),
       lookupC c k = none → get_from_cache c k now = (none, c)) ∧
    (∀ (c : Cache α) (k : String) (d : α) (T : Nat),
       lookupC c k = some (d, T) →
         (get_from_cache c k (T + CACHE_TTL - 1)).1 = some d ∧
         (get_from_cache c k (T + CACHE_TTL)).1 = none) := by
  refine ⟨?_, ?_, ?_, ?_⟩
  · intro c k now d
    cases hc : lookupC c k with
    | none => simp [get_from_cache, hc]
    | some p =>
      obtain ⟨d', ts'⟩ := p
      by_cases h : now - ts' < CACHE_TTL
      · simp only [get_from_cache, hc, if_pos h]
        constructor
        · intro h2
          exact ⟨ts', by rw [Option.some_inj.mp h2], h⟩
        · rintro ⟨ts, hts, _⟩
          obtain ⟨h1, _⟩ := Prod.mk.injEq .. ▸ Option.some_inj.mp hts
          rw [h1]
      · simp only [get_from_cache, hc, if_neg h]
        constructor
        · intro h2
          exact absurd h2 (by simp)
        · rintro ⟨ts, hts, hlt⟩
          obtain ⟨_, h2⟩ := Prod.mk.injEq .. ▸ Option.some_inj.mp hts
          exact absurd (h2 ▸ hlt) h
  · intro c k now d ts h hle
    have hn : ¬ now - ts < CACHE_TTL := not_lt.mpr hle
    refine ⟨by simp only [get_from_cache, h, if_neg hn], ?_⟩
    intro hnd
    simp only [get_from_cache, h, if_neg hn]
    exact lookupC_eraseKey_self k hnd
  · intro c k now h
    simp [get_from_cache, h]
  · intro c k d T h
    have h1 : T + CACHE_TTL - 1 - T < CACHE_TTL := by
      unfold CACHE_TTL
      omega
    have h2 : ¬ (T + CACHE_TTL - T < CACHE_TTL) := by
      unfold CACHE_TTL
      omega
    exact ⟨by simp only [get_from_cache, h, if_pos h1],
           by simp only [get_from_cache, h, if_neg h2]⟩

/-- Witness for `claim_C3_get_from_cache_semantics` at a concrete input. -/
theorem claim_C3_witness :
    (get_from_cache [("x", (7 : Nat), 100)] "x" (100 + CACHE_TTL - 1)).1 = some 7 ∧
    (get_from_cache [("x", (7 : Nat), 100)] "x" (100 + CACHE_TTL)).1 = none :=
  (claim_C3_get_from_cache_semantics (α := Nat)).2.2.2
    [("x", 7, 100)] "x" 7 100 (by decide)

/-- C4: starting within capacity, any completed insert stays within
capacity; an insert at capacity evicts exactly the minimum-`storedAt`
entry; and inserting `capacity + 1` distinct keys (timestamps nondecreasing
in insertion order, as wall-clock time is) into the empty cache leaves
exactly `capacity` entries, the first-inserted key being the one evicted. -/
theorem claim_C4_capacity_invariant {α : Type} :
    (∀ (c : Cache α) (k : String) (d : α) (t : Nat),
       c.length ≤ CACHE_MAX_SIZE → (set_cache c k d t).length ≤ CACHE_MAX_SIZE) ∧
    (∀ (c : Cache α) (k : String) (d : α) (t : Nat) (m : String × α × Nat),
       CACHE_MAX_SIZE ≤ c.length → minByTs c = some m →
       set_cache c k d t = dictInsert (eraseKey c m.1) k (d, t)) ∧
    (∀ (front : Cache α) (z : String × α × Nat),
       front.length = CACHE_MAX_SIZE → keysNodup (front ++ [z]) →
       (front ++ [z]).Pairwise (fun a b => a.2.2 ≤ b.2.2) →
       insertAll ([] : Cache α) (front ++ [z]) = front.tail ++ [z] ∧
       (insertAll ([] : Cache α) (front ++ [z])).length = CACHE_MAX_SIZE ∧
       (∀ e0, front.head? = some e0 → lookupC (front.tail ++ [z]) e0.1 = none)) := by
  refine ⟨?_, ?_, ?_⟩
  · intro c k d t hle
    by_cases h : CACHE_MAX_SIZE ≤ c.length
    · have hne : c ≠ [] := by
        intro h0
        rw [h0] at h
        simp [CACHE_MAX_SIZE] at h
      obtain ⟨m, hm⟩ := minByTs_isSome hne
      rw [set_cache_of_full k d t h hm]
      have hmem : m.1 ∈ keys c := List.mem_map_of_mem _ (minByTs_mem hm)
      have hlen := length_eraseKey_of_mem hmem
      rw [length_dictInsert]
      split
      · omega
      · omega
    · rw [set_cache_of_lt k d t (by omega), length_dictInsert]
      split
      · omega
      · omega
  · intro c k d t m hfull hm
    exact set_cache_of_full k d t hfull hm
  · intro front z hlen hnd hpw
    obtain ⟨e0, front', rfl⟩ : ∃ e0 front', front = e0 :: front' := by
      cases front with
      | nil => simp [CACHE_MAX_SIZE] at hlen
      | cons a l => exact ⟨a, l, rfl⟩
    have hnd2 : (keys (e0 :: front') ++ keys [z]).Nodup := by
      rw [← keys_append]
      exact hnd
    rw [List.nodup_append] at hnd2
    have hfrontnd : keysNodup (e0 :: front') := hnd2.1
    have hdisj : List.Disjoint (keys (e0 :: front')) (keys [z]) := hnd2.2.2
    have hmain : insertAll ([] : Cache α) ((e0 :: front') ++ [z]) = front' ++ [z] := by
      unfold insertAll
      rw [List.foldl_append]
      have hfront : insertAll ([] : Cache α) (e0 :: front') = e0 :: front' := by
        have := insertAll_fresh (e0 :: front') []
        simp only [List.nil_append] at this
        exact this hfrontnd (le_of_eq hlen)
      unfold insertAll at hfront
      rw [hfront]
      show set_cache (e0 :: front') z.1 z.2.1 z.2.2 = front' ++ [z]
      have hm : minByTs (e0 :: front') = some e0 := by
        apply minByTs_head
        intro y hy
        have hp := List.pairwise_cons.mp
          (show List.Pairwise (fun a b => a.2.2 ≤ b.2.2) (e0 :: (front' ++ [z])) from hpw)
        exact hp.1 y (List.mem_append_left _ hy)
      rw [set_cache_of_full _ _ _ (le_of_eq hlen.symm) hm]
      have herase : eraseKey (e0 :: front') e0.1 = front' := by
        simp [eraseKey]
      rw [herase]
      unfold dictInsert
      have hz : lookupC front' z.1 = none := by
        rw [lookupC_eq_none_iff]
        intro hmem
        exact hdisj (List.mem_cons_of_mem _ hmem) (List.mem_cons_self _ _)
      rw [if_neg (by rw [hz]; simp)]
    refine ⟨hmain, ?_, ?_⟩
    · rw [hmain]
      simp only [List.length_cons] at hlen
      simp only [List.length_append, List.length_cons, List.length_nil]
      omega
    · intro e1 he1
      simp only [List.head?_cons, Option.some_inj] at he1
      subst he1
      simp only [List.tail_cons]
      have h1 : lookupC front' e0.1 = none := by
        rw [lookupC_eq_none_iff]
        intro hmem
        have hh := hfrontnd
        simp only [keysNodup, keys, List.map_cons, List.nodup_cons] at hh
        exact hh.1 hmem
      rw [lookupC_append_of_none _ h1]
      have h2 : ¬ (z.1 = e0.1) := by
        intro hzz
        exact hdisj (List.mem_cons_self _ _) (by simp [keys, hzz])
      simp only [lookupC, if_neg h2]

set_option maxRecDepth 8000 in
/-- Witness for `claim_C4_capacity_invariant` at concrete inputs. -/
theorem claim_C4_witness :
    insertAll ([] : Cache Nat) (bigCache ++ [("z", 0, 200)]) =
      bigCache.tail ++ [("z", 0, 200)] ∧
    (insertAll ([] : Cache Nat) (bigCache ++ [("z", 0, 200)])).length =
      CACHE_MAX_SIZE ∧
    lookupC (bigCache.tail ++ [("z", 0, 200)]) "k0" = none := by
  have h := (claim_C4_capacity_invariant (α := Nat)).2.2 bigCache ("z", 0, 200)
    (by decide) (by decide) (by decide)
  exact ⟨h.1, h.2.1, h.2.2 ("k0", 0, 0) (by decide)⟩

/-! ## Claims C5, C10: the cache key derivation -/

theorem joinFoldl_append (xs : List (List Char)) :
    ∀ a b : List Char,
      xs.foldl (fun acc s => acc ++ '_' :: s) (a ++ b) =
        a ++ xs.foldl (fun acc s => acc ++ '_' :: s) b := by
  induction xs with
  | nil => intro a b; rfl
  | cons x xs ih =>
    intro a b
    simp only [List.foldl_cons]
    rw [List.append_assoc]
    exact ih a (b ++ '_' :: x)

theorem joinChar_cons_cons (x y : List Char) (ys : List (List Char)) :
    joinChar (x :: y :: ys) = x ++ '_' :: joinChar (y :: ys) := by
  show (y :: ys).foldl (fun acc s => acc ++ '_' :: s) x =
    x ++ '_' :: joinChar (y :: ys)
  simp only [List.foldl_cons]
  have h : x ++ '_' :: y = (x ++ ['_']) ++ y := by simp
  rw [h, joinFoldl_append]
  simp [joinChar]

theorem takeWhile_underscore_append (x t : List Char) (hx : '_' ∉ x) :
    (x ++ '_' :: t).takeWhile (fun c => c != '_') = x := by
  induction x with
  | nil => simp [List.takeWhile]
  | cons c cs ih =>
    have hc : (c != '_') = true := by
      simp only [bne_iff_ne, ne_eq]
      exact fun h => hx (h ▸ List.mem_cons_self _ _)
    simp only [List.cons_append, List.takeWhile, hc]
    exact congrArg (c :: ·) (ih (fun h => hx (List.mem_cons_of_mem _ h)))

theorem joinChar_inj : ∀ l₁ l₂ : List (List Char), l₁ ≠ [] → l₂ ≠ [] →
    (∀ x ∈ l₁, '_' ∉ x) → (∀ x ∈ l₂, '_' ∉ x) →
    joinChar l₁ = joinChar l₂ → l₁ = l₂ := by
  intro l₁
  induction l₁ with
  | nil => intro l₂ h1 _ _ _ _; exact absurd rfl h1
  | cons x xs ih =>
    intro l₂ _ h2 hx hy hj
    cases l₂ with
    | nil => exact absurd rfl h2
    | cons y ys =>
      cases xs with
      | nil =>
        cases ys with
        | nil =>
          have hxy : x = y := hj
          rw [hxy]
        | cons y' ys' =>
          exfalso
          have hjy : joinChar (y :: y' :: ys') = y ++ '_' :: joinChar (y' :: ys') :=
            joinChar_cons_cons y y' ys'
          have hux : ('_' : Char) ∈ x := by
            have hq : x = y ++ '_' :: joinChar (y' :: ys') := by rw [← hjy]; exact hj
            rw [hq]
            exact List.mem_append_right _ (List.mem_cons_self _ _)
          exact hx x (List.mem_cons_self _ _) hux
      | cons x' xs' =>
        cases ys with
        | nil =>
          exfalso
          have hjx : joinChar (x :: x' :: xs') = x ++ '_' :: joinChar (x' :: xs') :=
            joinChar_cons_cons x x' xs'
          have huy : ('_' : Char) ∈ y := by
            have hq : y = x ++ '_' :: joinChar (x' :: xs') := by rw [← hjx]; exact hj.symm
            rw [hq]
            exact List.mem_append_right _ (List.mem_cons_self _ _)
          exact hy y (List.mem_cons_self _ _) huy
        | cons y' ys' =>
          rw [joinChar_cons_cons, joinChar_cons_cons] at hj
          have hxu : '_' ∉ x := hx x (List.mem_cons_self _ _)
          have hyu : '_' ∉ y := hy y (List.mem_cons_self _ _)
          have hxy : x = y := by
            have t1 := takeWhile_underscore_append x (joinChar (x' :: xs')) hxu
            have t2 := takeWhile_underscore_append y (joinChar (y' :: ys')) hyu
            rw [hj] at t1
            rw [t2] at t1
            exact t1.symm
          subst hxy
          have hj2 : joinChar (x' :: xs') = joinChar (y' :: ys') := by
            have hcons := List.append_cancel_left hj
            exact (List.cons.injEq .. ▸ hcons).2
          have hrec := ih (y' :: ys') (by simp) (by simp)
            (fun a ha => hx a (List.mem_cons_of_mem _ ha))
            (fun a ha => hy a (List.mem_cons_of_mem _ ha)) hj2
          rw [hrec]

theorem key_string_foldl_data (xs : List String) :
    ∀ acc : String,
      (xs.foldl (fun acc s => acc ++ "_" ++ s) acc).data =
        (xs.map String.data).foldl (fun a s => a ++ '_' :: s) acc.data := by
  induction xs with
  | nil => intro acc; rfl
  | cons x xs ih =>
    intro acc
    simp only [List.foldl_cons, List.map_cons]
    rw [ih]
    have h : (acc ++ "_" ++ x).data = acc.data ++ '_' :: x.data := by
      rw [String.data_append, String.data_append]
      simp
    rw [h]

theorem key_string_data (args : List String) :
    (key_string args).data = joinChar (args.map String.data) := by
  cases args with
  | nil => rfl
  | cons x xs =>
    simp only [key_string, joinChar, List.map_cons]
    exact key_string_foldl_data xs x

set_option maxRecDepth 8000 in
/-- C5 is false on the code: the separator `"_"` occurs inside parts, so
two distinct logical requests collide — `("matches","1_2","3")` and
`("matches","1","2_3")` join to the same `key_string` `"matches_1_2_3"`
and hence derive the same MD5 cache key. -/
theorem claim_C5_counterexample :
    key_string ["matches", "1_2", "3"] = key_string ["matches", "1", "2_3"] ∧
    cache_key_generator ["matches", "1_2", "3"] =
      cache_key_generator ["matches", "1", "2_3"] ∧
    (["matches", "1_2", "3"] : List String) ≠ ["matches", "1", "2_3"] :=
  ⟨rfl, rfl, by decide⟩

/-- C5 (amended): the pre-hash `key_string` is injective on nonempty
argument lists whose parts are free of the separator `'_'` (so namespaces
partition the key space for separator-free parameter tuples); for parts
containing `'_'` the joined string is ambiguous and the claim fails, as the
counterexample shows.  (Distinctness of the final keys additionally rests
on MD5 collision-freedom over these inputs, which is outside the model.) -/
theorem claim_C5_amended (args₁ args₂ : List String)
    (h1 : args₁ ≠ []) (h2 : args₂ ≠ [])
    (hx : ∀ s ∈ args₁, ('_' : Char) ∉ s.data)
    (hy : ∀ s ∈ args₂, ('_' : Char) ∉ s.data)
    (hk : key_string args₁ = key_string args₂) : args₁ = args₂ := by
  have hdata : joinChar (args₁.map String.data) = joinChar (args₂.map String.data) := by
    rw [← key_string_data, ← key_string_data, hk]
  have hmap := joinChar_inj (args₁.map String.data) (args₂.map String.data)
    (by simpa using h1) (by simpa using h2)
    (by intro a ha
        obtain ⟨s, hs, rfl⟩ := List.mem_map.mp ha
        exact hx s hs)
    (by intro a ha
        obtain ⟨s, hs, rfl⟩ := List.mem_map.mp ha
        exact hy s hs)
    hdata
  exact List.map_injective_iff.mpr (fun a b hab => String.ext hab) hmap

/-- Witness for `claim_C5_amended` at a concrete input. -/
theorem claim_C5_witness :
    (["matches", "3", "9"] : List String) = ["matches", "3", "9"] :=
  claim_C5_amended ["matches", "3", "9"] ["matches", "3", "9"]
    (by decide) (by decide) (by decide) (by decide) rfl

set_option maxRecDepth 8000 in
/-- C10: `cache_key_generator` is a pure function of its arguments — equal
argument lists yield identical keys — and swapping two distinct parts
changes the key: `("matches","3","9")` vs `("matches","9","3")` derive
different MD5 keys. -/
theorem claim_C10_key_determinism :
    (∀ args : List String, cache_key_generator args = cache_key_generator args) ∧
    cache_key_generator ["matches", "3", "9"] ≠
      cache_key_generator ["matches", "9", "3"] :=
  ⟨fun _ => rfl, by decide⟩

/-! ## Claim C6: the matches endpoint -/

/-- C6: when both rank labels convert with `int`, `get_matches` computes
exactly the one composite key `"{row-1}_{col-1}"` and looks it up in the
first aggregate document: absence of that key is a failure — even when the
mirrored key is present — and presence returns the stored games.
Concretely, ranks `(3, 9)` compute key `"2_8"`, and a document holding only
`"8_2"` yields the generic failure. -/
theorem claim_C6_single_key_lookup {γ : Type} :
    (∀ (docs : List (List (String × List γ))) (doc : List (String × List γ))
       (row_rank col_rank : String) (r c : Int),
       pyInt row_rank = some r → pyInt col_rank = some c →
       docs.head? = some doc →
       (lookupDoc doc (compositeKey r c) = none →
          get_matches docs row_rank col_rank = .error ()) ∧
       (∀ games, lookupDoc doc (compositeKey r c) = some games →
          get_matches docs row_rank col_rank =
            .ok { matchesList := games, count := games.length,
                  row_rank := row_rank, col_rank := col_rank })) ∧
    get_matches [[("8_2", ([7] : List Nat))]] "3" "9" = .error () := by
  constructor
  · intro docs doc row_rank col_rank r c hr hc hd
    constructor
    · intro habs
      simp only [get_matches, hr, hc, hd, habs]
    · intro games hpres
      simp only [get_matches, hr, hc, hd, hpres]
  · rfl

/-- Witness for `claim_C6_single_key_lookup` at a concrete input. -/
theorem claim_C6_witness :
    get_matches [[("2_8", ([5] : List Nat))]] "3" "9" =
      .ok { matchesList := [5], count := 1, row_rank := "3", col_rank := "9" } := by
  have h := ((claim_C6_single_key_lookup (γ := Nat)).1
    [[("2_8", [5])]] [("2_8", [5])] "3" "9" 3 9
    (by decide) (by decide) rfl).2 [5] (by decide)
  exact h

/-! ## Lemmas about the ranking-history loop and sort -/

theorem collectHistory_none (sd ed : Date) (team_list : List String) :
    ∀ rankings : Rankings,
      (∃ g ∈ rankings, strptimeMDY (beforeHyphen g.1) = none) →
      collectHistory rankings sd ed team_list = none := by
  intro rankings
  induction rankings with
  | nil =>
    rintro ⟨g, hg, _⟩
    exact absurd hg (List.not_mem_nil g)
  | cons g0 rest ih =>
    rintro ⟨g, hg, hgn⟩
    obtain ⟨ds, rl⟩ := g0
    rcases List.mem_cons.mp hg with rfl | hmem
    · have hgn2 : strptimeMDY (beforeHyphen ds) = none := hgn
      simp [collectHistory, hgn2]
    · cases hparse : strptimeMDY (beforeHyphen ds) with
      | none => simp [collectHistory, hparse]
      | some dt =>
        simp only [collectHistory, hparse]
        rw [ih ⟨g, hmem, hgn⟩]
        rfl

theorem collectHistory_eq_spec (sd ed : Date) (team_list : List String) :
    ∀ rankings : Rankings,
      (∀ g ∈ rankings, (strptimeMDY (beforeHyphen g.1)).isSome) →
      collectHistory rankings sd ed team_list =
        some (specEmittedRows rankings team_list sd ed) := by
  intro rankings
  induction rankings with
  | nil => intro _; rfl
  | cons g0 rest ih =>
    intro h
    obtain ⟨ds, rl⟩ := g0
    have hh : (strptimeMDY (beforeHyphen ds)).isSome :=
      h (ds, rl) (List.mem_cons_self _ _)
    cases hparse : strptimeMDY (beforeHyphen ds) with
    | none =>
      rw [hparse] at hh
      exact absurd hh (by simp)
    | some dt =>
      simp only [collectHistory, specEmittedRows, List.flatMap_cons, hparse]
      rw [ih (fun g hg => h g (List.mem_cons_of_mem _ hg))]
      simp [specEmittedRows]

theorem specEmittedRows_cons (g : String × List RankEntry) (rest : Rankings)
    (tl : List String) (sd ed : Date) :
    specEmittedRows (g :: rest) tl sd ed =
      (match strptimeMDY (beforeHyphen g.1) with
       | some dt =>
           if dateLe sd dt ∧ dateLe dt ed then
             (g.2.filter (fun t => t.team_name ∈ tl)).map
               (fun t => { team_name := t.team_name, date := strftimeYMD dt,
                           rank := t.ranking })
           else []
       | none => []) ++ specEmittedRows rest tl sd ed := by
  simp [specEmittedRows]

theorem specEmittedRows_eq_nil (rankings : Rankings) (sd ed : Date)
    (hne : ∀ g ∈ rankings, ∀ t ∈ g.2, t.team_name ≠ "") :
    specEmittedRows rankings [""] sd ed = [] := by
  induction rankings with
  | nil => rfl
  | cons g0 rest ih =>
    obtain ⟨ds, rl⟩ := g0
    rw [specEmittedRows_cons, ih (fun g hg => hne g (List.mem_cons_of_mem _ hg)),
        List.append_nil]
    have hfilter : rl.filter (fun t => t.team_name ∈ [""]) = [] := by
      rw [ List.filter_eq_nil_iff]
      intro t ht
      simp only [List.mem_singleton, decide_eq_true_eq]
      exact hne (ds, rl) (List.mem_cons_self _ _) t ht
    cases hparse : strptimeMDY (beforeHyphen (ds, rl).1) with
    | none => simp [hparse]
    | some dt =>
      simp only [hparse]
      split
      · rw [hfilter]
        rfl
      · rfl

theorem charToNat_inj {a b : Char} (h : a.toNat = b.toNat) : a = b :=
  Char.ext (UInt32.ext h)

theorem strLtB_irrefl : ∀ cs : List Char, strLtB cs cs = false := by
  intro cs
  induction cs with
  | nil => rfl
  | cons c cs ih => simp [strLtB, ih]

theorem strLtB_trans : ∀ {a b c : List Char},
    strLtB a b = true → strLtB b c = true → strLtB a c = true := by
  intro a
  induction a with
  | nil =>
    intro b c hab hbc
    cases b with
    | nil => simp [strLtB] at hab
    | cons bh bt =>
      cases c with
      | nil => simp [strLtB] at hbc
      | cons ch ct => simp [strLtB]
  | cons ah as ih =>
    intro b c hab hbc
    cases b with
    | nil => simp [strLtB] at hab
    | cons bh bt =>
      cases c with
      | nil => simp [strLtB] at hbc
      | cons ch ct =>
        simp only [strLtB] at hab hbc ⊢
        by_cases h1 : ah.toNat < bh.toNat
        · by_cases h2 : bh.toNat < ch.toNat
          · rw [if_pos (h1.trans h2)]
          · rw [if_neg h2] at hbc
            by_cases h3 : bh = ch
            · have hn : ah.toNat < ch.toNat := by
                have := congrArg Char.toNat h3
                omega
              rw [if_pos hn]
            · rw [if_neg h3] at hbc
              exact absurd hbc (by simp)
        · rw [if_neg h1] at hab
          by_cases h3 : ah = bh
          · rw [if_pos h3] at hab
            have he := congrArg Char.toNat h3
            by_cases h2 : bh.toNat < ch.toNat
            · rw [if_pos (show ah.toNat < ch.toNat by omega)]
            · rw [if_neg h2] at hbc
              by_cases h4 : bh = ch
              · rw [if_pos h4] at hbc
                have hac : ah = ch := h3.trans h4
                rw [if_neg (show ¬ ah.toNat < ch.toNat by
                      rw [hac]; exact lt_irrefl _),
                    if_pos hac]
                exact ih hab hbc
              · rw [if_neg h4] at hbc
                exact absurd hbc (by simp)
          · rw [if_neg h3] at hab
            exact absurd hab (by simp)

theorem strLtB_asymm : ∀ {a b : List Char},
    strLtB a b = true → strLtB b a = false := by
  intro a
  induction a with
  | nil =>
    intro b h
    cases b with
    | nil => simp [strLtB] at h
    | cons bh bt => simp [strLtB]
  | cons ah as ih =>
    intro b h
    cases b with
    | nil => simp [strLtB] at h
    | cons bh bt =>
      simp only [strLtB] at h ⊢
      by_cases h1 : ah.toNat < bh.toNat
      · have h2 : ¬ bh.toNat < ah.toNat := by omega
        have h3 : ¬ bh = ah := fun he => by
          have := congrArg Char.toNat he
          omega
        simp [h2, h3]
      · rw [if_neg h1] at h
        by_cases h4 : ah = bh
        · rw [if_pos h4] at h
          have he := congrArg Char.toNat h4
          rw [if_neg (show ¬ bh.toNat < ah.toNat by omega), if_pos h4.symm]
          exact ih h
        · rw [if_neg h4] at h
          exact absurd h (by simp)

theorem strLtB_trichotomy : ∀ a b : List Char,
    strLtB a b = true ∨ strLtB b a = true ∨ a = b := by
  intro a
  induction a with
  | nil =>
    intro b
    cases b with
    | nil => exact Or.inr (Or.inr rfl)
    | cons bh bt => exact Or.inl (by simp [strLtB])
  | cons ah as ih =>
    intro b
    cases b with
    | nil => exact Or.inr (Or.inl (by simp [strLtB]))
    | cons bh bt =>
      by_cases h1 : ah.toNat < bh.toNat
      · exact Or.inl (by simp [strLtB, h1])
      · by_cases h2 : bh.toNat < ah.toNat
        · refine Or.inr (Or.inl ?_)
          simp only [strLtB]
          rw [if_pos h2]
        · have heq : ah = bh := charToNat_inj (by omega)
          subst heq
          rcases ih bt with h | h | h
          · exact Or.inl (by simp [strLtB, h])
          · exact Or.inr (Or.inl (by simp [strLtB, h]))
          · exact Or.inr (Or.inr (by rw [h]))

theorem strLtB_false_trans {a b c : List Char}
    (hab : strLtB a b = false) (hbc : strLtB b c = false) :
    strLtB a c = false := by
  cases hx : strLtB a c with
  | false => rfl
  | true =>
    exfalso
    rcases strLtB_trichotomy c b with h1 | h1 | h1
    · rw [strLtB_trans hx h1] at hab
      exact Bool.noConfusion hab
    · rw [h1] at hbc
      exact Bool.noConfusion hbc
    · subst h1
      rw [hx] at hab
      exact Bool.noConfusion hab

instance : IsTrans HistoryRow rowLe := by
  constructor
  intro x y z hxy hyz
  unfold rowLe strLt strLe at *
  rcases hxy with h1 | ⟨h1, h2⟩ <;> rcases hyz with h3 | ⟨h3, h4⟩
  · exact Or.inl (strLtB_trans h1 h3)
  · exact Or.inl (by rw [← h3]; exact h1)
  · exact Or.inl (by rw [h1]; exact h3)
  · exact Or.inr ⟨h1.trans h3, strLtB_false_trans h4 h2⟩

instance : IsTotal HistoryRow rowLe := by
  constructor
  intro x y
  unfold rowLe strLt strLe
  rcases strLtB_trichotomy x.date.data y.date.data with h | h | h
  · exact Or.inl (Or.inl h)
  · exact Or.inr (Or.inl h)
  · have hdate : x.date = y.date := String.ext h
    rcases strLtB_trichotomy x.team_name.data y.team_name.data with h2 | h2 | h2
    · exact Or.inl (Or.inr ⟨hdate, strLtB_asymm h2⟩)
    · exact Or.inr (Or.inr ⟨hdate.symm, strLtB_asymm h2⟩)
    · refine Or.inl (Or.inr ⟨hdate, ?_⟩)
      have hteam : x.team_name = y.team_name := String.ext h2
      rw [hteam]
      exact strLtB_irrefl _

theorem filter_key_orderedInsert (dk tk : String) (a : HistoryRow) :
    ∀ l : List HistoryRow,
      (List.orderedInsert rowLe a l).filter (rowKeyIs dk tk) =
        if rowKeyIs dk tk a then a :: l.filter (rowKeyIs dk tk)
        else l.filter (rowKeyIs dk tk) := by
  intro l
  induction l with
  | nil =>
    cases hpa : rowKeyIs dk tk a <;>
      simp [List.orderedInsert, List.filter, hpa]
  | cons b l ih =>
    by_cases hab : rowLe a b
    · have hoi : List.orderedInsert rowLe a (b :: l) = a :: b :: l := by
        simp [List.orderedInsert, hab]
      rw [hoi]
      cases hpa : rowKeyIs dk tk a <;> simp [List.filter_cons, hpa]
    · have hoi : List.orderedInsert rowLe a (b :: l) =
          b :: List.orderedInsert rowLe a l := by
        simp [List.orderedInsert, hab]
      rw [hoi]
      cases hpb : rowKeyIs dk tk b with
      | false => simp [List.filter_cons, hpb, ih]
      | true =>
        cases hpa : rowKeyIs dk tk a with
        | false => simp [List.filter_cons, hpb, hpa, ih]
        | true =>
          exfalso
          apply hab
          have h1 : a.date = dk ∧ a.team_name = tk := by
            simpa [rowKeyIs] using hpa
          have h2 : b.date = dk ∧ b.team_name = tk := by
            simpa [rowKeyIs] using hpb
          unfold rowLe strLe
          refine Or.inr ⟨h1.1.trans h2.1.symm, ?_⟩
          have hteam : b.team_name = a.team_name := h2.2.trans h1.2.symm
          rw [hteam]
          exact strLtB_irrefl _

theorem filter_key_insertionSort (dk tk : String) :
    ∀ l : List HistoryRow,
      (List.insertionSort rowLe l).filter (rowKeyIs dk tk) =
        l.filter (rowKeyIs dk tk) := by
  intro l
  induction l with
  | nil => rfl
  | cons a l ih =>
    simp only [List.insertionSort]
    rw [filter_key_orderedInsert]
    cases hpa : rowKeyIs dk tk a <;> simp [List.filter_cons, hpa, ih]

/-! ## Claims C2, C7, C8, C9: the ranking-history endpoint -/

/-- C2 is false on the code: a malformed date-group label is not skipped —
the `ValueError` escapes the loop, the whole request fails with the generic
failure response, and rows already collected from well-formed groups are
discarded.  (The same request with only the well-formed group succeeds.) -/
theorem claim_C2_counterexample :
    get_team_ranking_history
        [("01/05/2023", [⟨"A", 1⟩]), ("badlabel", [⟨"A", 2⟩])]
        "A" "2023-01-01" "2023-12-31" = .error () ∧
    get_team_ranking_history [("01/05/2023", [⟨"A", 1⟩])]
        "A" "2023-01-01" "2023-12-31" =
      .ok { data := [⟨"A", "2023-01-05", 1⟩], count := 1, teams := ["A"],
            rangeStart := "2023-01-01", rangeEnd := "2023-12-31" } :=
  ⟨rfl, rfl⟩

/-- C2 (amended): for well-formed start/end dates, a malformed date-group
label anywhere in the dataset makes the entire request fail with the
generic failure response — there is no per-group skipping and no partial
result, and consequently nothing is memoized for the request. -/
theorem claim_C2_amended (rankings : Rankings)
    (team_names start_date end_date : String) (sd ed : Date)
    (hsd : strptimeYMD start_date = some sd)
    (hed : strptimeYMD end_date = some ed)
    (hbad : ∃ g ∈ rankings, strptimeMDY (beforeHyphen g.1) = none) :
    get_team_ranking_history rankings team_names start_date end_date = .error () := by
  have hcol := collectHistory_none sd ed
    ((strSplitOn ',' team_names).map (fun name => String.mk (stripChars name.data)))
    rankings hbad
  simp [get_team_ranking_history, hsd, hed, hcol]

/-- Witness for `claim_C2_amended` at a concrete input. -/
theorem claim_C2_witness :
    get_team_ranking_history [("badlabel", [])] "A" "2023-01-01" "2023-12-31" =
      .error () :=
  claim_C2_amended [("badlabel", [])] "A" "2023-01-01" "2023-12-31"
    ⟨2023, 1, 1⟩ ⟨2023, 12, 31⟩ (by decide) (by decide)
    ⟨("badlabel", []), List.mem_cons_self _ _, by decide⟩

/-- C7: with well-formed request dates and a dataset all of whose group
labels parse, the request succeeds and its rows are exactly the spec's
emission — one row per dataset entry whose group date (the label's portion
before the hyphen, in month/day/year slash format) lies in the inclusive
range and whose team name is requested, carrying the team name, the
ISO-formatted group date and the entry's ranking — in sorted order. -/
theorem claim_C7_history_filter (rankings : Rankings)
    (team_names start_date end_date : String) (sd ed : Date)
    (hsd : strptimeYMD start_date = some sd)
    (hed : strptimeYMD end_date = some ed)
    (hds : ∀ g ∈ rankings, (strptimeMDY (beforeHyphen g.1)).isSome) :
    get_team_ranking_history rankings team_names start_date end_date =
      .ok { data := sortHistory (specEmittedRows rankings
              ((strSplitOn ',' team_names).map
                (fun name => String.mk (stripChars name.data))) sd ed),
            count := (sortHistory (specEmittedRows rankings
              ((strSplitOn ',' team_names).map
                (fun name => String.mk (stripChars name.data))) sd ed)).length,
            teams := (strSplitOn ',' team_names).map
              (fun name => String.mk (stripChars name.data)),
            rangeStart := start_date, rangeEnd := end_date } := by
  have hcol := collectHistory_eq_spec sd ed
    ((strSplitOn ',' team_names).map (fun name => String.mk (stripChars name.data)))
    rankings hds
  simp [get_team_ranking_history, hsd, hed, hcol]

/-- Witness for `claim_C7_history_filter` at the spec's concrete test case:
dataset `{"01/05/2023": [A ↦ 1], "01/10/2023": [B ↦ 2]}`, teams `"A"`,
range `2023-01-01..2023-01-07` gives exactly the one row
`(A, 2023-01-05, 1)`. -/
theorem claim_C7_witness :
    (get_team_ranking_history
        [("01/05/2023", [⟨"A", 1⟩]), ("01/10/2023", [⟨"B", 2⟩])]
        "A" "2023-01-01" "2023-01-07" =
      .ok { data := sortHistory (specEmittedRows
              [("01/05/2023", [⟨"A", 1⟩]), ("01/10/2023", [⟨"B", 2⟩])]
              ((strSplitOn ',' "A").map
                (fun name => String.mk (stripChars name.data))) ⟨2023, 1, 1⟩ ⟨2023, 1, 7⟩),
            count := (sortHistory (specEmittedRows
              [("01/05/2023", [⟨"A", 1⟩]), ("01/10/2023", [⟨"B", 2⟩])]
              ((strSplitOn ',' "A").map
                (fun name => String.mk (stripChars name.data))) ⟨2023, 1, 1⟩ ⟨2023, 1, 7⟩)).length,
            teams := (strSplitOn ',' "A").map
              (fun name => String.mk (stripChars name.data)),
            rangeStart := "2023-01-01", rangeEnd := "2023-01-07" }) ∧
    sortHistory (specEmittedRows
        [("01/05/2023", [⟨"A", 1⟩]), ("01/10/2023", [⟨"B", 2⟩])]
        ((strSplitOn ',' "A").map
          (fun name => String.mk (stripChars name.data))) ⟨2023, 1, 1⟩ ⟨2023, 1, 7⟩) =
      [⟨"A", "2023-01-05", 1⟩] :=
  ⟨claim_C7_history_filter
      [("01/05/2023", [⟨"A", 1⟩]), ("01/10/2023", [⟨"B", 2⟩])]
      "A" "2023-01-01" "2023-01-07" ⟨2023, 1, 1⟩ ⟨2023, 1, 7⟩
      (by decide) (by decide) (by decide),
   by decide⟩

/-- C8: every successful ranking-history response is sorted by
`(date, teamName)` ascending — whatever the dataset iteration order — and
the sort is stable: for each `(date, teamName)` key, the response's rows
with that key are exactly the emitted rows with that key, in emission
order. -/
theorem claim_C8_sorted_stable (rankings : Rankings)
    (team_names start_date end_date : String) (r : HistoryResult)
    (h : get_team_ranking_history rankings team_names start_date end_date = .ok r) :
    r.data.Sorted rowLe ∧
    ∃ emitted sd ed,
      strptimeYMD start_date = some sd ∧ strptimeYMD end_date = some ed ∧
      collectHistory rankings sd ed
        ((strSplitOn ',' team_names).map
          (fun name => String.mk (stripChars name.data))) = some emitted ∧
      r.data = sortHistory emitted ∧
      ∀ dk tk, r.data.filter (rowKeyIs dk tk) =
        emitted.filter (rowKeyIs dk tk) := by
  simp only [get_team_ranking_history] at h
  split at h
  next => exact Except.noConfusion h
  next sd hsd =>
  split at h
  next => exact Except.noConfusion h
  next ed hed =>
  split at h
  next => exact Except.noConfusion h
  next emitted hcol =>
  injection h with h
  subst h
  refine ⟨List.sorted_insertionSort rowLe emitted,
    emitted, sd, ed, hsd, hed, hcol, rfl, ?_⟩
  intro dk tk
  exact filter_key_insertionSort dk tk emitted

/-- Witness for `claim_C8_sorted_stable`: groups iterated in reverse date
order still give a response sorted date-ascending. -/
theorem claim_C8_witness :
    ([⟨"A", "2023-01-05", 1⟩, ⟨"B", "2023-01-10", 2⟩] :
        List HistoryRow).Sorted rowLe :=
  (claim_C8_sorted_stable
    [("01/10/2023", [⟨"B", 2⟩]), ("01/05/2023", [⟨"A", 1⟩])]
    "A,B" "2023-01-01" "2023-01-31"
    { data := [⟨"A", "2023-01-05", 1⟩, ⟨"B", "2023-01-10", 2⟩], count := 2,
      teams := ["A", "B"], rangeStart := "2023-01-01", rangeEnd := "2023-01-31" }
    rfl).1

/-- C9: requesting the empty team-name string (with well-formed dates, a
dataset whose labels parse and none of whose entries has an empty team
name) succeeds with zero rows rather than an error. -/
theorem claim_C9_empty_team_string (rankings : Rankings)
    (start_date end_date : String) (sd ed : Date)
    (hsd : strptimeYMD start_date = some sd)
    (hed : strptimeYMD end_date = some ed)
    (hds : ∀ g ∈ rankings, (strptimeMDY (beforeHyphen g.1)).isSome)
    (hne : ∀ g ∈ rankings, ∀ t ∈ g.2, t.team_name ≠ "") :
    get_team_ranking_history rankings "" start_date end_date =
      .ok { data := [], count := 0, teams := [""],
            rangeStart := start_date, rangeEnd := end_date } := by
  have hteam : (strSplitOn ',' "").map
      (fun name => String.mk (stripChars name.data)) = [""] := rfl
  have hcol := collectHistory_eq_spec sd ed [""] rankings hds
  rw [specEmittedRows_eq_nil rankings sd ed hne] at hcol
  simp [get_team_ranking_history, hsd, hed, hteam, hcol, sortHistory]

/-- Witness for `claim_C9_empty_team_string` at a concrete input. -/
theorem claim_C9_witness :
    get_team_ranking_history [("01/05/2023", [⟨"A", 1⟩])] ""
        "2023-01-01" "2023-12-31" =
      .ok { data := [], count := 0, teams := [""],
            rangeStart := "2023-01-01", rangeEnd := "2023-12-31" } :=
  claim_C9_empty_team_string [("01/05/2023", [⟨"A", 1⟩])]
    "2023-01-01" "2023-12-31" ⟨2023, 1, 1⟩ ⟨2023, 12, 31⟩
    (by decide) (by decide) (by decide) (by decide)

end WaterpoloApi
